import Mathlib

/-!
Verification of `src/gpytorch/lazy/non_lazy_tensor.py`.

The file embeds the `NonLazyTensor` adapter class and the `lazify` factory
function in Lean.  Dense torch tensors are modelled as a shape (a list of
dimension sizes) together with flat row-major integer data; the torch
primitives the adapter delegates to (`torch.matmul`, `Tensor.transpose`,
`Tensor.diagonal`, `Tensor.size`, `Tensor.__getitem__`) are modelled in the
`Torch` namespace.  Python objects, the runtime type tests
(`torch.is_tensor`, `isinstance(-, LazyTensor)`) and the raised exceptions
are modelled explicitly so that the error-handling claims can be stated.
-/

set_option autoImplicit false
set_option linter.unusedVariables false

namespace GPyTorch

/-- Model of a dense torch tensor: a shape `[d₁, …, dₖ]` and the entries in
row-major order.  A tensor is well formed when `data` has exactly
`shape.prod` entries. -/
structure Tensor where
  shape : List Nat
  data : List Int
deriving DecidableEq, Repr

/-- Well-formedness of the flat representation: the data list matches the
shape. -/
def Tensor.wf (t : Tensor) : Bool :=
  t.data.length == t.shape.prod

/-- All multi-indices of a shape, enumerated in row-major order. -/
def allIdx : List Nat → List (List Nat)
  | [] => [[]]
  | d :: s => ((List.range d).map (fun i => (allIdx s).map (i :: ·))).flatten

/-- Row-major flat position of a multi-index inside a shape. -/
def flatIndex : List Nat → List Nat → Nat
  | _ :: s, i :: k => i * s.prod + flatIndex s k
  | _, _ => 0

/-- Entry of a tensor at a multi-index (0 outside the data). -/
def Tensor.get (t : Tensor) (idx : List Nat) : Int :=
  (t.data[flatIndex t.shape idx]?).getD 0

/-- Swap the last two entries of a list; identity on shorter lists.  Used
for both shapes and multi-indices of `transpose(-1, -2)`. -/
def swapLast2 (l : List Nat) : List Nat :=
  match l.reverse with
  | b :: a :: rest => (a :: b :: rest).reverse
  | _ => l

namespace Torch

/-- Model of `Tensor.transpose(-1, -2)`: the last two dimensions are
exchanged and every entry is looked up at the index with its last two
components exchanged. -/
def transpose_last2 (t : Tensor) : Tensor :=
  { shape := swapLast2 t.shape
    data := (allIdx (swapLast2 t.shape)).map (fun k => t.get (swapLast2 k)) }

/-- Model of `torch.matmul` on batched matrices: for shapes
`B ++ [m, n]` and `B ++ [n, p]` the result has shape `B ++ [m, p]` and
entry `(b, i, j) = Σ_k lhs (b, i, k) * rhs (b, k, j)`.  Inputs that are not
matrix batches of matching shape (where torch would broadcast or raise) are
given a junk empty result; no claim depends on them. -/
def matmul (a b : Tensor) : Tensor :=
  match a.shape.reverse, b.shape.reverse with
  | n :: m :: batchRev, p :: _ :: _ =>
    let outShape := (p :: m :: batchRev).reverse
    { shape := outShape
      data := (allIdx outShape).map (fun idx =>
        match idx.reverse with
        | j :: i :: bRev =>
          ((List.range n).map (fun k =>
            a.get (bRev.reverse ++ [i, k]) * b.get (bRev.reverse ++ [k, j]))).sum
        | _ => 0) }
  | _, _ => { shape := [], data := [] }

/-- Entry function of `Tensor.diagonal(dim1=-2, dim2=-1)`: the output
index `(b, i)` reads the input at `(b, i, i)`. -/
def diagEntry (t : Tensor) (idx : List Nat) : Int :=
  match idx.reverse with
  | i :: bRev => t.get (bRev.reverse ++ [i, i])
  | _ => 0

/-- Model of `Tensor.diagonal(dim1=-2, dim2=-1)`: for shape `B ++ [m, n]`
the result has shape `B ++ [min m n]` and entry `(b, i) = t (b, i, i)`;
torch appends the diagonal dimension last.  Tensors of dimension below 2
(where torch raises) get a junk empty result; no claim depends on them. -/
def diagonal_last2 (t : Tensor) : Tensor :=
  match t.shape.reverse with
  | n :: m :: batchRev =>
    let outShape := (Nat.min m n :: batchRev).reverse
    { shape := outShape
      data := (allIdx outShape).map (diagEntry t) }
  | _ => { shape := [], data := [] }

/-- Model of `Tensor.size()`: the shape. -/
def size (t : Tensor) : List Nat :=
  t.shape

end Torch

/-- One entry of a Python indexing tuple: an `int`, a `slice` object
(`start:stop:step`, each part optional), or an integer index tensor. -/
inductive TIndex where
  | int (i : Int)
  | slice (start stop step : Option Int)
  | tensorIdx (t : Tensor)
deriving DecidableEq, Repr

/-- `isinstance(ix, int)`. -/
def TIndex.isInt : TIndex → Bool
  | .int _ => true
  | _ => false

/-- `torch.is_tensor(ix)` for an index-tuple entry. -/
def TIndex.isTensorIdx : TIndex → Bool
  | .tensorIdx _ => true
  | _ => false

namespace Torch

/-- Normalise a possibly negative Python index into `[0, d)`;
`none` models the `IndexError` raised out of range. -/
def normIdx (i : Int) (d : Nat) : Option Nat :=
  let j := if i < 0 then i + d else i
  if 0 ≤ j ∧ j < d then some j.toNat else none

/-- The positions a slice `start:stop:step` (positive step) selects out of
a dimension of size `d`, with Python's clamping of out-of-range bounds. -/
def slicePositions (d : Nat) (start stop step : Option Int) : List Nat :=
  let stp := (step.getD 1).toNat
  let norm : Int → Nat := fun i => (if i < 0 then i + d else i).toNat.min d
  let a := match start with
    | none => 0
    | some i => norm i
  let b := match stop with
    | none => d
    | some i => norm i
  (List.range d).filter (fun k => a ≤ k && k < b && (k - a) % stp == 0)

/-- Shape of the result of indexing shape `s` with an index tuple, `none`
when indexing raises (too many indices, out-of-range `int`, out-of-range
index-tensor entry, non-positive slice step). -/
def outShape : List Nat → List TIndex → Option (List Nat)
  | s, [] => some s
  | [], _ :: _ => none
  | d :: s, ix :: rest =>
    match ix with
    | .int i =>
      match normIdx i d with
      | some _ => outShape s rest
      | none => none
    | .slice st sp stp =>
      if stp.getD 1 ≤ 0 then none
      else (outShape s rest).map ((slicePositions d st sp stp).length :: ·)
    | .tensorIdx u =>
      if u.data.all (fun v => (normIdx v d).isSome) then
        (outShape s rest).map (u.shape ++ ·)
      else none

/-- Flat data of the result of indexing: each index-tuple entry consumes
one leading dimension; an `int` picks one chunk, a slice concatenates the
selected chunks, an index tensor concatenates the chunks named by its
entries.  Remaining indices are applied inside each selected chunk. -/
def gather : List Nat → List Int → List TIndex → Option (List Int)
  | _, data, [] => some data
  | [], _, _ :: _ => none
  | d :: s, data, ix :: rest =>
    let p := s.prod
    let chunk := fun (j : Nat) => (data.drop (j * p)).take p
    match ix with
    | .int i =>
      match normIdx i d with
      | some j => gather s (chunk j) rest
      | none => none
    | .slice st sp stp =>
      if stp.getD 1 ≤ 0 then none
      else
        ((slicePositions d st sp stp).mapM (fun j => gather s (chunk j) rest)).map
          List.flatten
    | .tensorIdx u =>
      match u.data.mapM (fun v => normIdx v d) with
      | some js => (js.mapM (fun j => gather s (chunk j) rest)).map List.flatten
      | none => none

/-- Model of `Tensor.__getitem__` with a tuple of indices; `none` models a
raised exception. -/
def getitem (t : Tensor) (ixs : List TIndex) : Option Tensor :=
  match outShape t.shape ixs, gather t.shape t.data ixs with
  | some s, some d => some { shape := s, data := d }
  | _, _ => none

end Torch

/-- Model of a raised Python exception: the exception class and message. -/
inductive PyError where
  | runtimeError (msg : String)
  | typeError (msg : String)
deriving DecidableEq, Repr

/-- The `NonLazyTensor` adapter: its only own field is the wrapped dense
tensor, assigned by `__init__` as `self.tensor = tsr`.  (The base-class
`LazyTensor.__init__(tsr)` call is code outside `src/`; by the spec the
base class is only an interface contract and it plays no role in the
claims about this file.) -/
structure NonLazyTensor where
  tensor : Tensor
deriving DecidableEq, Repr

/-- An object of (a subclass of) the `LazyTensor` base class.  Modelled
from the spec: the base class itself lives outside `src/` and is described
only as "the lazy-matrix abstraction"; for the dispatch in `lazify` all
that matters is membership in the class, so other subclasses are carried
abstractly by their class name. -/
inductive LazyTensorObj where
  | nonLazy (n : NonLazyTensor)
  | otherLazy (cls : String)
deriving DecidableEq, Repr

/-- A Python object as `lazify` / `NonLazyTensor.__init__` can receive it:
a dense torch tensor, a `LazyTensor` instance, or any other object,
carried by its class name. -/
inductive PyValue where
  | tensor (t : Tensor)
  | lazy (l : LazyTensorObj)
  | other (cls : String)
deriving DecidableEq, Repr

/-- `torch.is_tensor(obj)`. -/
def PyValue.is_tensor : PyValue → Bool
  | .tensor _ => true
  | _ => false

/-- `isinstance(obj, LazyTensor)`.  `NonLazyTensor` is a subclass, so its
instances satisfy this; dense tensors and other objects do not. -/
def PyValue.isLazyTensor : PyValue → Bool
  | .lazy _ => true
  | _ => false

/-- `obj.__class__.__name__`. -/
def LazyTensorObj.className : LazyTensorObj → String
  | .nonLazy _ => "NonLazyTensor"
  | .otherLazy cls => cls

/-- `obj.__class__.__name__`. -/
def PyValue.className : PyValue → String
  | .tensor _ => "Tensor"
  | .lazy l => l.className
  | .other cls => cls

/-- `NonLazyTensor.__init__`: raises `RuntimeError` unless the argument is
a torch tensor, otherwise stores it as `self.tensor`. -/
def NonLazyTensor.init (tsr : PyValue) : Except PyError NonLazyTensor :=
  if tsr.is_tensor then
    match tsr with
    | .tensor t => .ok { tensor := t }
    | _ => .error (.runtimeError "unreachable: is_tensor only holds of tensors")
  else
    .error (.runtimeError
      ("NonLazyTensor must take a torch.Tensor; got " ++ tsr.className))

/-- `NonLazyTensor(t)` for an argument statically known to be a dense
tensor (as in `_getitem`, `_transpose_nonbatch` and `lazify`): the
constructor's `torch.is_tensor` check succeeds. -/
def NonLazyTensor.ofTensor (t : Tensor) : NonLazyTensor :=
  { tensor := t }

namespace NonLazyTensor

/-- `self.tensor.__getitem__((*batch_indices, left_indices, right_indices))`. -/
def _get_indices (self : NonLazyTensor) (left_indices right_indices : TIndex)
    (batch_indices : List TIndex) : Option Tensor :=
  Torch.getitem self.tensor (batch_indices ++ [left_indices, right_indices])

/-- Result of `_getitem`: either a raw dense tensor or a new wrapped
`NonLazyTensor`. -/
inductive GetItemResult where
  | raw (t : Tensor)
  | wrapped (n : NonLazyTensor)
deriving DecidableEq, Repr

/-- The dense entries a `_getitem` result holds. -/
def GetItemResult.entries : GetItemResult → Tensor
  | .raw t => t
  | .wrapped n => n.tensor

/-- `NonLazyTensor._getitem(*indices)`: computes `res = self.tensor[indices]`,
then returns `res` raw when `indices[-2]` or `indices[-1]` is an `int` or a
tensor, and `NonLazyTensor(res)` otherwise.  `none` models a raised
exception (from the indexing itself, or the `indices[-2]` access when the
tuple has fewer than two entries). -/
def _getitem (self : NonLazyTensor) (indices : List TIndex) :
    Option GetItemResult :=
  match Torch.getitem self.tensor indices with
  | none => none
  | some res =>
    match indices.reverse with
    | col_index :: row_index :: _ =>
      if row_index.isInt || row_index.isTensorIdx
          || col_index.isInt || col_index.isTensorIdx then
        some (.raw res)
      else
        some (.wrapped (NonLazyTensor.ofTensor res))
    | _ => none

/-- `return torch.matmul(self.tensor, rhs)`. -/
def _matmul (self : NonLazyTensor) (rhs : Tensor) : Tensor :=
  Torch.matmul self.tensor rhs

/-- `res = left_vecs.matmul(right_vecs.transpose(-1, -2)); return (res,)`. -/
def _quad_form_derivative (self : NonLazyTensor)
    (left_vecs right_vecs : Tensor) : List Tensor :=
  let res := Torch.matmul left_vecs (Torch.transpose_last2 right_vecs)
  [res]

/-- `return self.tensor.size()`. -/
def _size (self : NonLazyTensor) : List Nat :=
  Torch.size self.tensor

/-- `return NonLazyTensor(self.tensor.transpose(-1, -2))`. -/
def _transpose_nonbatch (self : NonLazyTensor) : NonLazyTensor :=
  NonLazyTensor.ofTensor (Torch.transpose_last2 self.tensor)

/-- `return torch.matmul(self.tensor.transpose(-1, -2), rhs)`. -/
def _t_matmul (self : NonLazyTensor) (rhs : Tensor) : Tensor :=
  Torch.matmul (Torch.transpose_last2 self.tensor) rhs

/-- `return self.tensor.diagonal(dim1=-2, dim2=-1)`. -/
def diag (self : NonLazyTensor) : Tensor :=
  Torch.diagonal_last2 self.tensor

/-- `return self.tensor`. -/
def evaluate (self : NonLazyTensor) : Tensor :=
  self.tensor

end NonLazyTensor

/-- `lazify(obj)`: wraps a dense tensor in a `NonLazyTensor` (through the
constructor), returns a `LazyTensor` unchanged, and raises `TypeError`
otherwise.  The three `match` arms are the source's three branches: the
constructors of `PyValue` are exactly the cases its two `if` tests
separate. -/
def lazify (obj : PyValue) : Except PyError LazyTensorObj :=
  match obj with
  | .tensor _ => (NonLazyTensor.init obj).map LazyTensorObj.nonLazy
  | .lazy l => .ok l
  | .other cls =>
    .error (.typeError
      ("object of class " ++ cls ++ " cannot be made into a LazyTensor"))

/-- A call to one of the nine `NonLazyTensor` methods, with its
arguments. -/
inductive MethodCall where
  | matmulC (rhs : Tensor)
  | t_matmulC (rhs : Tensor)
  | getitemC (indices : List TIndex)
  | get_indicesC (left right : TIndex) (batch : List TIndex)
  | quad_form_derivativeC (left_vecs right_vecs : Tensor)
  | sizeC
  | transpose_nonbatchC
  | diagC
  | evaluateC
deriving DecidableEq, Repr

/-- The value a method call returns. -/
inductive MethodRet where
  | tensorRet (t : Tensor)
  | sizeRet (s : List Nat)
  | lazyRet (n : NonLazyTensor)
  | itemRet (r : Option NonLazyTensor.GetItemResult)
  | indicesRet (r : Option Tensor)
  | tupleRet (l : List Tensor)
deriving DecidableEq, Repr

/-- State-passing form of the nine methods: each call returns its value
together with the state of `self` after the call.  The translation is
field-assignment for field-assignment: no method body of the source
assigns to `self.tensor` (or any other attribute) or calls an in-place
tensor operation, so every arm returns `self` unchanged. -/
def NonLazyTensor.call (self : NonLazyTensor) :
    MethodCall → MethodRet × NonLazyTensor
  | .matmulC rhs => (.tensorRet (self._matmul rhs), self)
  | .t_matmulC rhs => (.tensorRet (self._t_matmul rhs), self)
  | .getitemC indices => (.itemRet (self._getitem indices), self)
  | .get_indicesC left right batch =>
    (.indicesRet (self._get_indices left right batch), self)
  | .quad_form_derivativeC left_vecs right_vecs =>
    (.tupleRet (self._quad_form_derivative left_vecs right_vecs), self)
  | .sizeC => (.sizeRet self._size, self)
  | .transpose_nonbatchC => (.lazyRet self._transpose_nonbatch, self)
  | .diagC => (.tensorRet self.diag, self)
  | .evaluateC => (.tensorRet self.evaluate, self)

/-! ### Lemmas about the row-major index enumeration -/

theorem swapLast2_append (xs : List Nat) (a b : Nat) :
    swapLast2 (xs ++ [a, b]) = xs ++ [b, a] := by
  unfold swapLast2
  have h : (xs ++ [a, b]).reverse = b :: a :: xs.reverse := by simp
  rw [h]
  simp

theorem list_last2_cases (l : List Nat) :
    l = [] ∨ (∃ a, l = [a]) ∨ ∃ xs a b, l = xs ++ [a, b] := by
  rcases h : l.reverse with _ | ⟨b, _ | ⟨a, r⟩⟩
  · left
    rw [List.reverse_eq_iff] at h
    simpa using h
  · right; left
    rw [List.reverse_eq_iff] at h
    exact ⟨b, by simpa using h⟩
  · right; right
    rw [List.reverse_eq_iff] at h
    exact ⟨r.reverse, a, b, by simpa using h⟩

theorem swapLast2_swapLast2 (l : List Nat) : swapLast2 (swapLast2 l) = l := by
  rcases list_last2_cases l with h | ⟨a, h⟩ | ⟨xs, a, b, h⟩ <;> subst h
  · rfl
  · rfl
  · rw [swapLast2_append, swapLast2_append]

theorem mem_allIdx : ∀ (s : List Nat) (k : List Nat),
    k ∈ allIdx s ↔ List.Forall₂ (fun i d => i < d) k s := by
  intro s
  induction s with
  | nil =>
    intro k
    simp [allIdx, List.forall₂_nil_right_iff]
  | cons d s ih =>
    intro k
    simp only [allIdx, List.mem_flatten, List.mem_map, List.mem_range,
      List.forall₂_cons_right_iff]
    constructor
    · rintro ⟨bl, ⟨i, hi, rfl⟩, hk⟩
      rcases List.mem_map.mp hk with ⟨k', hk', rfl⟩
      exact ⟨i, k', hi, (ih k').mp hk', rfl⟩
    · rintro ⟨i, k', hi, hk', rfl⟩
      exact ⟨(allIdx s).map (i :: ·), ⟨i, hi, rfl⟩,
        List.mem_map.mpr ⟨k', (ih k').mpr hk', rfl⟩⟩

theorem length_allIdx : ∀ (s : List Nat), (allIdx s).length = s.prod := by
  intro s
  induction s with
  | nil => rfl
  | cons d s ih =>
    unfold allIdx
    rw [List.length_flatten, List.map_map]
    have hconst : (List.length ∘ fun i => (allIdx s).map (i :: ·)) =
        fun (_ : Nat) => s.prod := by
      funext i
      simp [List.length_map, ih]
    rw [hconst, List.map_const', List.sum_replicate, smul_eq_mul,
      List.length_range, List.prod_cons]

theorem flatIndex_lt : ∀ (s k : List Nat),
    List.Forall₂ (fun i d => i < d) k s → flatIndex s k < s.prod := by
  intro s
  induction s with
  | nil =>
    intro k h
    rw [List.forall₂_nil_right_iff] at h
    subst h
    simp [flatIndex]
  | cons d s ih =>
    intro k h
    rcases List.forall₂_cons_right_iff.mp h with ⟨i, k', hi, hk', rfl⟩
    have hf : flatIndex s k' < s.prod := ih k' hk'
    have h1 : i * s.prod + flatIndex s k' < (i + 1) * s.prod := by
      rw [Nat.succ_mul]
      omega
    have h2 : (i + 1) * s.prod ≤ d * s.prod :=
      Nat.mul_le_mul_right _ hi
    calc flatIndex (d :: s) (i :: k')
        = i * s.prod + flatIndex s k' := rfl
      _ < (i + 1) * s.prod := h1
      _ ≤ d * s.prod := h2
      _ = (d :: s).prod := (List.prod_cons).symm

theorem flatten_getElem? {α : Type} :
    ∀ (L : List (List α)) (p i r : Nat) (bl : List α),
    (∀ b ∈ L, b.length = p) → L[i]? = some bl → r < p →
    L.flatten[i * p + r]? = bl[r]? := by
  intro L
  induction L with
  | nil =>
    intro p i r bl _ hbl _
    simp at hbl
  | cons b L ihL =>
    intro p i r bl hL hbl hr
    cases i with
    | zero =>
      simp only [List.getElem?_cons_zero, Option.some.injEq] at hbl
      subst hbl
      have hb : r < b.length := by
        rw [hL b (List.mem_cons_self _ _)]
        exact hr
      simp only [List.flatten_cons, Nat.zero_mul, Nat.zero_add]
      rw [List.getElem?_append, if_pos hb]
    | succ i =>
      simp only [List.getElem?_cons_succ] at hbl
      have hblen : b.length = p := hL b (List.mem_cons_self _ _)
      have hge : b.length ≤ (i + 1) * p + r := by
        rw [hblen, Nat.succ_mul]
        omega
      simp only [List.flatten_cons]
      rw [List.getElem?_append_right hge, hblen]
      have harith : (i + 1) * p + r - p = i * p + r := by
        rw [Nat.succ_mul]
        omega
      rw [harith]
      exact ihL p i r bl (fun c hc => hL c (List.mem_cons_of_mem _ hc)) hbl hr

theorem allIdx_getElem? : ∀ (s k : List Nat),
    List.Forall₂ (fun i d => i < d) k s →
    (allIdx s)[flatIndex s k]? = some k := by
  intro s
  induction s with
  | nil =>
    intro k h
    rw [List.forall₂_nil_right_iff] at h
    subst h
    rfl
  | cons d s ih =>
    intro k h
    rcases List.forall₂_cons_right_iff.mp h with ⟨i, k', hi, hk', rfl⟩
    have hblocks : ∀ b ∈ (List.range d).map (fun i => (allIdx s).map (i :: ·)),
        b.length = s.prod := by
      intro b hb
      rcases List.mem_map.mp hb with ⟨j, _, rfl⟩
      rw [List.length_map, length_allIdx]
    have hbl : ((List.range d).map (fun i => (allIdx s).map (i :: ·)))[i]? =
        some ((allIdx s).map (i :: ·)) := by
      rw [List.getElem?_map, List.getElem?_range hi]
      rfl
    have hr : flatIndex s k' < s.prod := flatIndex_lt s k' hk'
    show (allIdx (d :: s))[i * s.prod + flatIndex s k']? = some (i :: k')
    unfold allIdx
    rw [flatten_getElem? _ s.prod i (flatIndex s k') _ hblocks hbl hr,
      List.getElem?_map, ih k' hk']
    rfl

theorem map_allIdx_getElem? {α : Type} (f : List Nat → α) (s k : List Nat)
    (h : List.Forall₂ (fun i d => i < d) k s) :
    ((allIdx s).map f)[flatIndex s k]? = some (f k) := by
  rw [List.getElem?_map, allIdx_getElem? s k h]
  rfl

theorem range_mul_flatten : ∀ (d p : Nat),
    (((List.range d).map (fun i => (List.range p).map (fun r => i * p + r))).flatten) =
    List.range (d * p) := by
  intro d p
  induction d with
  | zero => simp
  | succ d ih =>
    rw [List.range_succ, List.map_append, List.flatten_append, ih]
    simp only [List.map_cons, List.map_nil, List.flatten_cons, List.flatten_nil,
      List.append_nil]
    rw [Nat.succ_mul, List.range_add]

theorem map_flatIndex_allIdx : ∀ (s : List Nat),
    (allIdx s).map (flatIndex s) = List.range s.prod := by
  intro s
  induction s with
  | nil => rfl
  | cons d s ih =>
    unfold allIdx
    rw [List.map_flatten, List.map_map]
    have hblock : ((fun l => List.map (flatIndex (d :: s)) l) ∘
        fun i => (allIdx s).map (i :: ·)) =
        fun i => (List.range s.prod).map (fun r => i * s.prod + r) := by
      funext i
      simp only [Function.comp]
      rw [List.map_map]
      have : (flatIndex (d :: s) ∘ (i :: ·)) =
          (fun r => i * s.prod + r) ∘ flatIndex s := by
        funext k
        rfl
      rw [this, ← List.map_map, ih]
    rw [hblock, range_mul_flatten, List.prod_cons]

theorem map_getD_range : ∀ (l : List Int),
    (List.range l.length).map (fun j => (l[j]?).getD 0) = l := by
  intro l
  induction l with
  | nil => rfl
  | cons a l ih =>
    rw [List.length_cons, List.range_succ_eq_map, List.map_cons, List.map_map]
    simp only [List.getElem?_cons_zero, Option.getD_some]
    have : ((fun j => ((a :: l)[j]?).getD 0) ∘ Nat.succ) =
        fun j => (l[j]?).getD 0 := by
      funext j
      simp
    rw [this, ih]

theorem map_get_allIdx (t : Tensor) (h : t.wf = true) :
    (allIdx t.shape).map t.get = t.data := by
  have hlen : t.data.length = t.shape.prod := by
    simpa [Tensor.wf] using h
  have hcomp : t.get = (fun j => (t.data[j]?).getD 0) ∘ flatIndex t.shape := by
    funext k
    rfl
  rw [hcomp, ← List.map_map, map_flatIndex_allIdx, ← hlen, map_getD_range]

theorem forall₂_swapLast2 {k s : List Nat}
    (h : List.Forall₂ (fun i d => i < d) k s) :
    List.Forall₂ (fun i d => i < d) (swapLast2 k) (swapLast2 s) := by
  rcases list_last2_cases k with hk | ⟨a, hk⟩ | ⟨xs, a, b, hk⟩ <;> subst hk
  · rw [List.forall₂_nil_left_iff] at h
    subst h
    exact List.Forall₂.nil
  · rcases List.forall₂_cons_left_iff.mp h with ⟨n, u, han, hu, hs⟩
    rw [List.forall₂_nil_left_iff] at hu
    subst hu
    subst hs
    exact h
  · have hrev : List.Forall₂ (fun i d => i < d)
        (xs ++ [a, b]).reverse s.reverse := List.forall₂_reverse_iff.mpr h
    have hrev' : List.Forall₂ (fun i d => i < d)
        (b :: a :: xs.reverse) s.reverse := by
      simpa using hrev
    rcases List.forall₂_cons_left_iff.mp hrev' with ⟨n, u1, hbn, hu1, hs1⟩
    rcases List.forall₂_cons_left_iff.mp hu1 with ⟨m, u, ham, hxu, hs2⟩
    subst hs2
    have hs : s = u.reverse ++ [m, n] := by
      rw [List.reverse_eq_iff] at hs1
      simpa using hs1
    subst hs
    rw [swapLast2_append, swapLast2_append]
    have hxs : List.Forall₂ (fun i d => i < d) xs u.reverse := by
      have := List.forall₂_reverse_iff.mpr hxu
      simpa using this
    exact List.rel_append hxs
      (List.Forall₂.cons hbn (List.Forall₂.cons ham List.Forall₂.nil))

theorem swapLast2_prod (l : List Nat) : (swapLast2 l).prod = l.prod := by
  rcases list_last2_cases l with h | ⟨a, h⟩ | ⟨xs, a, b, h⟩ <;> subst h
  · rfl
  · rfl
  · rw [swapLast2_append]
    simp only [List.prod_append, List.prod_cons, List.prod_nil]
    ring

theorem transpose_last2_wf (t : Tensor) :
    (Torch.transpose_last2 t).wf = true := by
  simp [Tensor.wf, Torch.transpose_last2, List.length_map, length_allIdx,
    swapLast2_prod]

theorem transpose_last2_transpose_last2 (t : Tensor) (h : t.wf = true) :
    Torch.transpose_last2 (Torch.transpose_last2 t) = t := by
  rcases t with ⟨s, data⟩
  simp only [Torch.transpose_last2, swapLast2_swapLast2]
  congr 1
  have hpoint : ∀ k ∈ allIdx s,
      (Tensor.mk (swapLast2 s)
        ((allIdx (swapLast2 s)).map (fun j => (Tensor.mk s data).get (swapLast2 j)))).get
        (swapLast2 k) = (Tensor.mk s data).get k := by
    intro k hk
    have hks : List.Forall₂ (fun i d => i < d) k s := (mem_allIdx s k).mp hk
    have hks' : List.Forall₂ (fun i d => i < d) (swapLast2 k) (swapLast2 s) :=
      forall₂_swapLast2 hks
    show (((allIdx (swapLast2 s)).map
        (fun j => (Tensor.mk s data).get (swapLast2 j)))[flatIndex (swapLast2 s) (swapLast2 k)]?).getD 0 =
      (Tensor.mk s data).get k
    rw [map_allIdx_getElem? _ _ _ hks']
    simp only [Option.getD_some]
    rw [swapLast2_swapLast2]
  rw [List.map_congr_left hpoint]
  exact map_get_allIdx (Tensor.mk s data) h

theorem diagonal_last2_get (t : Tensor) (m n i : Nat)
    (hs : t.shape = [m, n]) (hi : i < Nat.min m n) :
    (Torch.diagonal_last2 t).get [i] = t.get [i, i] := by
  have hmk : Torch.diagonal_last2 t =
      Tensor.mk [Nat.min m n] ((allIdx [Nat.min m n]).map (Torch.diagEntry t)) := by
    rcases t with ⟨s, d⟩
    have hs' : s = [m, n] := hs
    subst hs'
    rfl
  have hforall : List.Forall₂ (fun a d => a < d) [i] [Nat.min m n] :=
    List.Forall₂.cons hi List.Forall₂.nil
  rw [hmk]
  show (((allIdx [Nat.min m n]).map
      (Torch.diagEntry t))[flatIndex [Nat.min m n] [i]]?).getD 0 = t.get [i, i]
  rw [map_allIdx_getElem? _ _ _ hforall]
  rfl

theorem getitem_method_eq (self : NonLazyTensor) (indices : List TIndex)
    (res : Tensor) (col_index row_index : TIndex) (rest : List TIndex)
    (h : Torch.getitem self.tensor indices = some res)
    (hsplit : indices.reverse = col_index :: row_index :: rest) :
    self._getitem indices =
      if row_index.isInt || row_index.isTensorIdx
          || col_index.isInt || col_index.isTensorIdx then
        some (NonLazyTensor.GetItemResult.raw res)
      else
        some (NonLazyTensor.GetItemResult.wrapped
          (NonLazyTensor.ofTensor res)) := by
  unfold NonLazyTensor._getitem
  rw [h, hsplit]

/-- Spec-side definition, written from the spec's words: the matrix
multiply is "forwarded directly to the underlying dense tensor's native
implementation", i.e. it is the native `torch.matmul` applied to the
wrapped tensor and the right-hand side, nothing more. -/
def spec_forward_matmul (T rhs : Tensor) : Tensor :=
  Torch.matmul T rhs

/-- Spec-side definition, written from the spec's words: the transposed
multiply is the native `torch.matmul` applied to the natively transposed
wrapped tensor and the right-hand side, nothing more. -/
def spec_forward_t_matmul (T rhs : Tensor) : Tensor :=
  Torch.matmul (Torch.transpose_last2 T) rhs

/-! ### The claims -/

/-- C1: for every `NonLazyTensor` wrapping a tensor `T` and every
right-hand side `rhs`, `_matmul(rhs)` is exactly `torch.matmul(T, rhs)`
and `_t_matmul(rhs)` is exactly
`torch.matmul(T.transpose(-1, -2), rhs)`: the adapter adds no computation
beyond the native primitive. -/
theorem claim_C1 (A : NonLazyTensor) (rhs : Tensor) :
    A._matmul rhs = spec_forward_matmul A.tensor rhs ∧
    A._t_matmul rhs = spec_forward_t_matmul A.tensor rhs :=
  ⟨rfl, rfl⟩

/-- C2: `lazify` has exactly three behaviours: a torch tensor is wrapped
in a `NonLazyTensor`, a `LazyTensor` is returned unchanged, and anything
else raises `TypeError`; it raises if and only if the input is neither a
tensor nor a `LazyTensor`. -/
theorem claim_C2 :
    (∀ t : Tensor, lazify (PyValue.tensor t) =
      .ok (.nonLazy (NonLazyTensor.ofTensor t))) ∧
    (∀ l : LazyTensorObj, lazify (PyValue.lazy l) = .ok l) ∧
    (∀ cls : String, lazify (PyValue.other cls) =
      .error (.typeError
        ("object of class " ++ cls ++ " cannot be made into a LazyTensor"))) ∧
    (∀ obj : PyValue, (∃ e, lazify obj = .error e) ↔
      obj.is_tensor = false ∧ obj.isLazyTensor = false) := by
  refine ⟨fun t => rfl, fun l => rfl, fun cls => rfl, fun obj => ?_⟩
  cases obj <;> simp [lazify, NonLazyTensor.init, PyValue.is_tensor,
    PyValue.isLazyTensor, Except.map]

/-- C3: the `NonLazyTensor` constructor raises exactly on non-tensor
arguments, and on a tensor argument it succeeds and stores the tensor as
the wrapped storage. -/
theorem claim_C3 :
    (∀ t : Tensor, NonLazyTensor.init (PyValue.tensor t) =
      .ok { tensor := t }) ∧
    (∀ obj : PyValue, obj.is_tensor = false →
      NonLazyTensor.init obj = .error (.runtimeError
        ("NonLazyTensor must take a torch.Tensor; got " ++ obj.className))) ∧
    (∀ obj : PyValue, (∃ e, NonLazyTensor.init obj = .error e) ↔
      obj.is_tensor = false) := by
  refine ⟨fun t => rfl, fun obj h => ?_, fun obj => ?_⟩
  · cases obj <;> simp_all [NonLazyTensor.init, PyValue.is_tensor]
  · cases obj <;> simp [NonLazyTensor.init, PyValue.is_tensor]

theorem claim_C3_witness :
    NonLazyTensor.init (PyValue.other "dict") = .error (.runtimeError
      ("NonLazyTensor must take a torch.Tensor; got " ++
        (PyValue.other "dict").className)) :=
  claim_C3.2.1 (PyValue.other "dict") rfl

/-- C4: `_get_indices(left, right, *batch)` is exactly
`T[(*batch, left, right)]`, and whenever `T[indices]` yields `res`, the
entries held by the `_getitem(*indices)` result are exactly `res`. -/
theorem claim_C4 (A : NonLazyTensor) (left_indices right_indices : TIndex)
    (batch_indices indices : List TIndex) (res : Tensor)
    (h : Torch.getitem A.tensor indices = some res) :
    A._get_indices left_indices right_indices batch_indices =
      Torch.getitem A.tensor (batch_indices ++ [left_indices, right_indices]) ∧
    (∀ out, A._getitem indices = some out → out.entries = res) := by
  refine ⟨rfl, fun out hout => ?_⟩
  rcases hrev : indices.reverse with _ | ⟨col, _ | ⟨row, rest⟩⟩
  · unfold NonLazyTensor._getitem at hout
    rw [h, hrev] at hout
    exact Option.noConfusion hout
  · unfold NonLazyTensor._getitem at hout
    rw [h, hrev] at hout
    exact Option.noConfusion hout
  · rw [getitem_method_eq A indices res col row rest h hrev] at hout
    by_cases hc : (row.isInt || row.isTensorIdx
        || col.isInt || col.isTensorIdx) = true
    · rw [if_pos hc] at hout
      cases hout
      rfl
    · rw [if_neg hc] at hout
      cases hout
      rfl

theorem claim_C4_witness :
    (NonLazyTensor.ofTensor (Tensor.mk [2, 2] [1, 2, 3, 4]))._get_indices
        (TIndex.int 0) (TIndex.int 1) [] =
      Torch.getitem (Tensor.mk [2, 2] [1, 2, 3, 4])
        ([] ++ [TIndex.int 0, TIndex.int 1]) ∧
    (NonLazyTensor.GetItemResult.raw (Tensor.mk [] [2])).entries =
      Tensor.mk [] [2] := by
  have h := claim_C4 (NonLazyTensor.ofTensor (Tensor.mk [2, 2] [1, 2, 3, 4]))
    (TIndex.int 0) (TIndex.int 1) [] [TIndex.int 0, TIndex.int 1]
    (Tensor.mk [] [2]) (by decide)
  exact ⟨h.1, h.2 _ (by decide)⟩

/-- C5: `diag()` is exactly `T.diagonal(dim1=-2, dim2=-1)` — for a matrix
its entries are the diagonal entries of the last two dimensions — and
`_size()` is exactly `T.size()`. -/
theorem claim_C5 (A : NonLazyTensor) :
    A.diag = Torch.diagonal_last2 A.tensor ∧
    A._size = Torch.size A.tensor ∧
    (∀ m n i : Nat, A.tensor.shape = [m, n] → i < Nat.min m n →
      A.diag.get [i] = A.tensor.get [i, i]) :=
  ⟨rfl, rfl, fun m n i hs hi => diagonal_last2_get A.tensor m n i hs hi⟩

theorem claim_C5_witness :
    (NonLazyTensor.ofTensor (Tensor.mk [2, 3] [1, 2, 3, 4, 5, 6])).diag =
      Torch.diagonal_last2 (Tensor.mk [2, 3] [1, 2, 3, 4, 5, 6]) ∧
    (NonLazyTensor.ofTensor (Tensor.mk [2, 3] [1, 2, 3, 4, 5, 6])).diag.get [1] =
      (Tensor.mk [2, 3] [1, 2, 3, 4, 5, 6]).get [1, 1] := by
  have h := claim_C5 (NonLazyTensor.ofTensor (Tensor.mk [2, 3] [1, 2, 3, 4, 5, 6]))
  exact ⟨h.1, h.2.2 2 3 1 (by decide) (by decide)⟩

/-- C6: wrapping then materializing is the identity: for every tensor `t`
both `NonLazyTensor(t).evaluate()` and `lazify(t).evaluate()` return
exactly `t`. -/
theorem claim_C6 (t : Tensor) :
    (NonLazyTensor.ofTensor t).evaluate = t ∧
    ∃ l, lazify (PyValue.tensor t) = .ok (.nonLazy l) ∧ l.evaluate = t :=
  ⟨rfl, NonLazyTensor.ofTensor t, rfl, rfl⟩

/-- C7: `_quad_form_derivative(left_vecs, right_vecs)` is the one-element
tuple `(left_vecs.matmul(right_vecs.transpose(-1, -2)),)` and does not
depend on the wrapped tensor. -/
theorem claim_C7 (A B : NonLazyTensor) (left_vecs right_vecs : Tensor) :
    A._quad_form_derivative left_vecs right_vecs =
      [Torch.matmul left_vecs (Torch.transpose_last2 right_vecs)] ∧
    (A._quad_form_derivative left_vecs right_vecs).length = 1 ∧
    A._quad_form_derivative left_vecs right_vecs =
      B._quad_form_derivative left_vecs right_vecs :=
  ⟨rfl, rfl, rfl⟩

/-- C8: on an index tuple with at least two entries whose indexing
succeeds, `_getitem` returns the raw dense result exactly when the
second-to-last or the last index is an `int` or a tensor, and a new
`NonLazyTensor` wrapping the result otherwise. -/
theorem claim_C8 (A : NonLazyTensor) (indices : List TIndex)
    (row_index col_index : TIndex) (rest : List TIndex) (res : Tensor)
    (hsplit : indices.reverse = col_index :: row_index :: rest)
    (h : Torch.getitem A.tensor indices = some res) :
    A._getitem indices =
      if row_index.isInt || row_index.isTensorIdx
          || col_index.isInt || col_index.isTensorIdx then
        some (NonLazyTensor.GetItemResult.raw res)
      else
        some (NonLazyTensor.GetItemResult.wrapped
          (NonLazyTensor.ofTensor res)) :=
  getitem_method_eq A indices res col_index row_index rest h hsplit

theorem claim_C8_witness :
    (NonLazyTensor.ofTensor (Tensor.mk [2, 2] [1, 2, 3, 4]))._getitem
        [TIndex.slice none none none, TIndex.slice none none none] =
      (if (TIndex.slice none none none).isInt
          || (TIndex.slice none none none).isTensorIdx
          || (TIndex.slice none none none).isInt
          || (TIndex.slice none none none).isTensorIdx then
        some (NonLazyTensor.GetItemResult.raw (Tensor.mk [2, 2] [1, 2, 3, 4]))
      else
        some (NonLazyTensor.GetItemResult.wrapped
          (NonLazyTensor.ofTensor (Tensor.mk [2, 2] [1, 2, 3, 4])))) :=
  claim_C8 (NonLazyTensor.ofTensor (Tensor.mk [2, 2] [1, 2, 3, 4]))
    [TIndex.slice none none none, TIndex.slice none none none]
    (TIndex.slice none none none) (TIndex.slice none none none) []
    (Tensor.mk [2, 2] [1, 2, 3, 4]) (by decide) (by decide)

/-- C9: `A._t_matmul(rhs)` equals `A._transpose_nonbatch()._matmul(rhs)`,
and transposing twice yields a `NonLazyTensor` whose wrapped tensor equals
the original. -/
theorem claim_C9 (A : NonLazyTensor) (rhs : Tensor)
    (h : A.tensor.wf = true) :
    A._t_matmul rhs = (A._transpose_nonbatch)._matmul rhs ∧
    ((A._transpose_nonbatch)._transpose_nonbatch).tensor = A.tensor :=
  ⟨rfl, transpose_last2_transpose_last2 A.tensor h⟩

theorem claim_C9_witness :
    (NonLazyTensor.ofTensor (Tensor.mk [2, 3] [1, 2, 3, 4, 5, 6]))._t_matmul
        (Tensor.mk [2, 2] [1, 0, 0, 1]) =
      ((NonLazyTensor.ofTensor
        (Tensor.mk [2, 3] [1, 2, 3, 4, 5, 6]))._transpose_nonbatch)._matmul
        (Tensor.mk [2, 2] [1, 0, 0, 1]) ∧
    (((NonLazyTensor.ofTensor
        (Tensor.mk [2, 3] [1, 2, 3, 4, 5, 6]))._transpose_nonbatch)._transpose_nonbatch).tensor =
      Tensor.mk [2, 3] [1, 2, 3, 4, 5, 6] :=
  claim_C9 (NonLazyTensor.ofTensor (Tensor.mk [2, 3] [1, 2, 3, 4, 5, 6]))
    (Tensor.mk [2, 2] [1, 0, 0, 1]) (by decide)

/-- C10: no method call mutates the wrapped storage: after any of the
nine methods, `self.tensor` is the tensor it was before the call. -/
theorem claim_C10 (A : NonLazyTensor) (m : MethodCall) :
    ((A.call m).2).tensor = A.tensor := by
  cases m <;> rfl

end GPyTorch
